import Mathlib

/-!
Verification of the Mandelbrot renderer in src/main.rs.

The program's `Complex<f64>` values are modelled as pairs of rationals:
every claim checked below only exercises control structure or values on
which the floating-point operations of the source are exact (small
integers and halves), so exact rational arithmetic is a faithful model.
Machine `usize` values are modelled as `Nat`, bytes (`u8`) as `Nat`
with the `as u8` cast made explicit as reduction mod 256.
-/

/-- Squared magnitude of a complex number represented as a pair of
rationals; models `Complex::norm_sqr` (`re*re + im*im`). -/
def norm_sqr (z : ℚ × ℚ) : ℚ := z.1 * z.1 + z.2 * z.2

/-- Complex multiplication on pairs of rationals, models `z * z`. -/
def cmul (a b : ℚ × ℚ) : ℚ × ℚ := (a.1 * b.1 - a.2 * b.2, a.1 * b.2 + a.2 * b.1)

/-- Complex addition on pairs of rationals, models `z * z + c`. -/
def cadd (a b : ℚ × ℚ) : ℚ × ℚ := (a.1 + b.1, a.2 + b.2)

/-- Loop body of `escape_time` (src/main.rs lines 53-58): `i` is the
current value of the loop counter, `fuel` the number of remaining loop
iterations (`limit - i`), and `z` the current iterate. -/
def escape_time.go (c z : ℚ × ℚ) (i : ℕ) : ℕ → Option ℕ
  | 0 => none
  | fuel + 1 =>
    if 4 < norm_sqr z then some i
    else escape_time.go c (cadd (cmul z z) c) (i + 1) fuel

/-- Model of `escape_time` from src/main.rs lines 51-60: start from
`z = 0 + 0i`, loop `for i in 0..limit`, return `Some(i)` as soon as
`z.norm_sqr() > 4.0`, otherwise set `z = z * z + c`; return `None`
when the loop ends. -/
def escape_time (c : ℚ × ℚ) (limit : ℕ) : Option ℕ :=
  escape_time.go c (0, 0) 0 limit

/-- Mathematical Mandelbrot iterates: `zIter c n` is the value the loop
variable `z` holds at the start of iteration `n` (`z_0 = 0`,
`z_{n+1} = z_n^2 + c`). -/
def zIter (c : ℚ × ℚ) : ℕ → ℚ × ℚ
  | 0 => (0, 0)
  | n + 1 => cadd (cmul (zIter c n) (zIter c n)) c

lemma escape_go_some (c : ℚ × ℚ) :
    ∀ (fuel i k : ℕ),
      escape_time.go c (zIter c i) i fuel = some k ↔
        (i ≤ k ∧ k < i + fuel ∧ 4 < norm_sqr (zIter c k) ∧
          ∀ j, i ≤ j → j < k → norm_sqr (zIter c j) ≤ 4) := by
  intro fuel
  induction fuel with
  | zero =>
    intro i k
    simp only [escape_time.go]
    constructor
    · intro h; cases h
    · rintro ⟨h1, h2, -⟩; omega
  | succ f ih =>
    intro i k
    rw [escape_time.go]
    by_cases hz : 4 < norm_sqr (zIter c i)
    · simp only [if_pos hz]
      constructor
      · intro h
        obtain rfl : i = k := by simpa using h
        exact ⟨le_refl i, by omega, hz, fun j h1 h2 => by omega⟩
      · rintro ⟨h1, h2, h3, h4⟩
        have : ¬ i < k := fun hik => absurd (h4 i (le_refl i) hik) (not_le.mpr hz)
        have : k = i := by omega
        simp [this]
    · simp only [if_neg hz]
      have hz1 : cadd (cmul (zIter c i) (zIter c i)) c = zIter c (i + 1) := rfl
      rw [hz1, ih (i + 1) k]
      constructor
      · rintro ⟨h1, h2, h3, h4⟩
        refine ⟨by omega, by omega, h3, fun j hj1 hj2 => ?_⟩
        rcases Nat.eq_or_lt_of_le hj1 with rfl | hj3
        · exact le_of_not_lt hz
        · exact h4 j hj3 hj2
      · rintro ⟨h1, h2, h3, h4⟩
        have hik : i ≠ k := fun h => hz (h ▸ h3)
        exact ⟨by omega, by omega, h3, fun j hj1 hj2 => h4 j (by omega) hj2⟩

lemma escape_go_none (c : ℚ × ℚ) :
    ∀ (fuel i : ℕ),
      escape_time.go c (zIter c i) i fuel = none ↔
        ∀ j, i ≤ j → j < i + fuel → norm_sqr (zIter c j) ≤ 4 := by
  intro fuel
  induction fuel with
  | zero =>
    intro i
    simp only [escape_time.go]
    constructor
    · intro _ j h1 h2; omega
    · intro _; trivial
  | succ f ih =>
    intro i
    rw [escape_time.go]
    by_cases hz : 4 < norm_sqr (zIter c i)
    · simp only [if_pos hz]
      constructor
      · intro h; cases h
      · intro h
        exact absurd (h i (le_refl i) (by omega)) (not_le.mpr hz)
    · simp only [if_neg hz]
      have hz1 : cadd (cmul (zIter c i) (zIter c i)) c = zIter c (i + 1) := rfl
      rw [hz1, ih (i + 1)]
      constructor
      · intro h j hj1 hj2
        rcases Nat.eq_or_lt_of_le hj1 with rfl | hj3
        · exact le_of_not_lt hz
        · exact h j hj3 (by omega)
      · intro h j hj1 hj2
        exact h j (by omega) (by omega)

lemma escape_some_iff (c : ℚ × ℚ) (limit k : ℕ) :
    escape_time c limit = some k ↔
      (k < limit ∧ 4 < norm_sqr (zIter c k) ∧
        ∀ j, j < k → norm_sqr (zIter c j) ≤ 4) := by
  have h0 : ((0 : ℚ), (0 : ℚ)) = zIter c 0 := rfl
  rw [escape_time, h0, escape_go_some c limit 0 k]
  constructor
  · rintro ⟨-, h2, h3, h4⟩
    exact ⟨by omega, h3, fun j hj => h4 j (Nat.zero_le j) hj⟩
  · rintro ⟨h1, h2, h3⟩
    exact ⟨Nat.zero_le k, by omega, h2, fun j _ hj => h3 j hj⟩

lemma escape_none_iff (c : ℚ × ℚ) (limit : ℕ) :
    escape_time c limit = none ↔
      ∀ j, j < limit → norm_sqr (zIter c j) ≤ 4 := by
  have h0 : ((0 : ℚ), (0 : ℚ)) = zIter c 0 := rfl
  rw [escape_time, h0, escape_go_none c limit 0]
  constructor
  · intro h j hj
    exact h j (Nat.zero_le j) (by omega)
  · intro h j _ hj
    exact h j (by omega)

lemma escape_time_lt (c : ℚ × ℚ) (limit t : ℕ)
    (h : escape_time c limit = some t) : t < limit :=
  ((escape_some_iff c limit t).mp h).1

/-- C1: `escape_time c limit` implements the Mandelbrot escape-time
recurrence: with `z_0 = 0` and `z_{n+1} = z_n^2 + c`, it returns
`some i` exactly for the first index `i < limit` at which
`|z_i|^2 > 4` holds (the test happens at the start of each iteration,
before any update), and `none` exactly when no index below `limit`
passes the test. -/
theorem escape_time_spec (c : ℚ × ℚ) (limit : ℕ) :
    (∀ k, escape_time c limit = some k ↔
      (k < limit ∧ 4 < norm_sqr (zIter c k) ∧
        ∀ j, j < k → norm_sqr (zIter c j) ≤ 4)) ∧
    (escape_time c limit = none ↔
      ∀ j, j < limit → norm_sqr (zIter c j) ≤ 4) :=
  ⟨fun k => escape_some_iff c limit k, escape_none_iff c limit⟩

lemma zIter_origin : ∀ n, zIter (0, 0) n = (0, 0) := by
  intro n
  induction n with
  | zero => rfl
  | succ m ih => rw [zIter, ih]; simp [cmul, cadd]

lemma escape_origin_none (limit : ℕ) : escape_time (0, 0) limit = none := by
  rw [escape_none_iff]
  intro j _
  rw [zIter_origin j]
  norm_num [norm_sqr]

/-- C5: the origin never escapes: for every positive limit,
`escape_time (0, 0) limit = none`. -/
theorem escape_time_origin (limit : ℕ) (_h : 0 < limit) :
    escape_time (0, 0) limit = none :=
  escape_origin_none limit

/-- Witness for C5 at the concrete limit 3. -/
theorem escape_time_origin_witness :
    0 < 3 ∧ escape_time (0, 0) 3 = none :=
  ⟨by decide, escape_time_origin 3 (by decide)⟩

lemma escape_three_some (limit : ℕ) (h : 2 ≤ limit) :
    escape_time ((3 : ℚ), (0 : ℚ)) limit = some 1 := by
  rw [escape_some_iff]
  refine ⟨by omega, ?_, ?_⟩
  · norm_num [zIter, norm_sqr, cadd, cmul]
  · intro j hj
    obtain rfl : j = 0 := by omega
    norm_num [zIter, norm_sqr]

/-- C4 counterexample: the spec says the real-axis point `3 + 0i`
escapes at step 0, but the code checks `z_0 = 0` first (norm 0, not
greater than 4) and only sees `z_1 = 3` at step 1, so at the positive
limit 255 the result is `some 1`, not `some 0`. -/
theorem escape_time_three_counterexample :
    escape_time ((3 : ℚ), (0 : ℚ)) 255 = some 1 ∧
      (some 1 : Option ℕ) ≠ some 0 := by
  constructor
  · rw [escape_time, escape_time.go, escape_time.go]
    norm_num [norm_sqr, cadd, cmul]
  · decide

lemma escape_three_one : escape_time ((3 : ℚ), (0 : ℚ)) 1 = none := by
  rw [escape_none_iff]
  intro j hj
  obtain rfl : j = 0 := by omega
  norm_num [zIter, norm_sqr]

/-- C4 amended: for every positive limit, `escape_time` at `3 + 0i`
returns `some 1` when the limit is at least 2 — the point escapes at
step 1, since the step-0 check sees `z_0 = 0` — and `none` when the
limit is 1. -/
theorem escape_time_three (limit : ℕ) (h : 0 < limit) :
    escape_time ((3 : ℚ), (0 : ℚ)) limit =
      if 2 ≤ limit then some 1 else none := by
  by_cases h2 : 2 ≤ limit
  · rw [if_pos h2]
    exact escape_three_some limit h2
  · rw [if_neg h2]
    obtain rfl : limit = 1 := by omega
    exact escape_three_one

/-- Witness for C4's amended theorem at the concrete limits 255 (the
escaping branch, `some 1`) and 1 (the `none` branch). -/
theorem escape_time_three_witness :
    (0 < 255 ∧ escape_time ((3 : ℚ), (0 : ℚ)) 255 = some 1) ∧
    (0 < 1 ∧ escape_time ((3 : ℚ), (0 : ℚ)) 1 = none) :=
  ⟨⟨by decide, by rw [escape_time_three 255 (by decide)]; decide⟩,
   ⟨by decide, by rw [escape_time_three 1 (by decide)]; decide⟩⟩

/-- Model of `pixel_to_point` from src/main.rs lines 83-95: the plane
width and height are derived from the two corners, and the pixel
coordinates are scaled by them and divided by the pixel bounds. -/
def pixel_to_point (bounds pixel : ℕ × ℕ)
    (upper_left lower_right : ℚ × ℚ) : ℚ × ℚ :=
  let width : ℚ := lower_right.1 - upper_left.1
  let height : ℚ := upper_left.2 - lower_right.2
  (upper_left.1 + (pixel.1 : ℚ) * width / (bounds.1 : ℚ),
   upper_left.2 - (pixel.2 : ℚ) * height / (bounds.2 : ℚ))

/-- C8: `pixel_to_point` computes real part
`upper_left.re + col * plane_width / bounds.0` and imaginary part
`upper_left.im - row * plane_height / bounds.1`, and the center pixel
(50, 50) of a 100x100 image over the square from (-1, 1) to (1, -1)
maps exactly to the origin. -/
theorem pixel_to_point_spec :
    (∀ (bounds pixel : ℕ × ℕ) (upper_left lower_right : ℚ × ℚ),
      pixel_to_point bounds pixel upper_left lower_right =
        (upper_left.1 +
           (pixel.1 : ℚ) * (lower_right.1 - upper_left.1) / (bounds.1 : ℚ),
         upper_left.2 -
           (pixel.2 : ℚ) * (upper_left.2 - lower_right.2) / (bounds.2 : ℚ))) ∧
    pixel_to_point (100, 100) (50, 50) (-1, 1) (1, -1) = (0, 0) := by
  constructor
  · intro bounds pixel upper_left lower_right
    rfl
  · norm_num [pixel_to_point]

/-- Intensity byte written for one pixel (src/main.rs lines 110-114):
0 when the point did not escape, otherwise `255 - time as u8`, the
cast modelled as reduction mod 256. -/
def render_pixel (point : ℚ × ℚ) : ℕ :=
  match escape_time point 255 with
  | none => 0
  | some time => 255 - time % 256

/-- Model of `render` from src/main.rs lines 97-119 as the row-major
list of bytes it writes into its band slice: for each `row` below
`bounds.1` and `column` below `bounds.0`, the byte at index
`row * bounds.0 + column` is `render_pixel` of the mapped point. -/
def render (bounds : ℕ × ℕ) (upper_left lower_right : ℚ × ℚ) : List ℕ :=
  (List.range bounds.2).flatMap fun row =>
    (List.range bounds.1).map fun column =>
      render_pixel (pixel_to_point bounds (column, row) upper_left lower_right)

lemma length_flatMap_const {w : ℕ} {f : ℕ → List ℕ}
    (hf : ∀ r, (f r).length = w) :
    ∀ h, ((List.range h).flatMap f).length = h * w := by
  intro h
  induction h with
  | zero => simp
  | succ n ih =>
    rw [List.range_succ, List.flatMap_append, List.length_append, ih,
      List.flatMap_cons, List.flatMap_nil, List.append_nil, hf n,
      Nat.succ_mul]

lemma getElem?_flatMap_const {w : ℕ} {f : ℕ → List ℕ}
    (hf : ∀ r, (f r).length = w) :
    ∀ (h row col : ℕ), row < h → col < w →
      ((List.range h).flatMap f)[row * w + col]? = (f row)[col]? := by
  intro h
  induction h with
  | zero => intro row col h1; omega
  | succ n ih =>
    intro row col h1 h2
    rw [List.range_succ, List.flatMap_append, List.flatMap_cons,
      List.flatMap_nil, List.append_nil]
    by_cases hr : row < n
    · rw [List.getElem?_append_left ?hlt]
      · exact ih row col hr h2
      · rw [length_flatMap_const hf n]
        have : (row + 1) * w ≤ n * w := Nat.mul_le_mul_right w (by omega)
        have : row * w + w ≤ n * w := by rwa [Nat.succ_mul] at this
        omega
    · obtain rfl : row = n := by omega
      rw [List.getElem?_append_right (by rw [length_flatMap_const hf]; omega)]
      congr 1
      rw [length_flatMap_const hf]
      omega

/-- C2: for every pixel of a band, `render` writes intensity 0 when
the point does not escape within the limit 255, and `255 - t` when it
escapes at step `t`; every returned `t` satisfies `t < 255`, so every
escaped pixel's intensity lies in [1, 255]. -/
theorem render_writes (bounds : ℕ × ℕ) (upper_left lower_right : ℚ × ℚ)
    (row col : ℕ) (hrow : row < bounds.2) (hcol : col < bounds.1) :
    (escape_time (pixel_to_point bounds (col, row) upper_left lower_right) 255 =
        none →
      (render bounds upper_left lower_right)[row * bounds.1 + col]? = some 0) ∧
    ∀ t,
      escape_time (pixel_to_point bounds (col, row) upper_left lower_right) 255 =
          some t →
      (render bounds upper_left lower_right)[row * bounds.1 + col]? =
          some (255 - t) ∧
        t < 255 ∧ 1 ≤ 255 - t ∧ 255 - t ≤ 255 := by
  have hbyte : (render bounds upper_left lower_right)[row * bounds.1 + col]? =
      some (render_pixel
        (pixel_to_point bounds (col, row) upper_left lower_right)) := by
    rw [render, getElem?_flatMap_const (fun r => by simp) bounds.2 row col hrow
      hcol]
    rw [List.getElem?_map, List.getElem?_range hcol, Option.map_some']
  constructor
  · intro hnone
    rw [hbyte, render_pixel, hnone]
  · intro t ht
    have hlt : t < 255 := escape_time_lt _ 255 t ht
    refine ⟨?_, hlt, by omega, by omega⟩
    rw [hbyte, render_pixel, ht]
    show some (255 - t % 256) = some (255 - t)
    rw [Nat.mod_eq_of_lt (show t < 256 by omega)]

lemma pixel_three : pixel_to_point (1, 1) (0, 0) ((3 : ℚ), (0 : ℚ))
    ((4 : ℚ), (0 : ℚ)) = (3, 0) := by
  norm_num [pixel_to_point]

/-- Witness for C2 on the concrete 1x1 render over the region from
(3, 0) to (4, 0), whose single point escapes at step 1 and receives
intensity 254. -/
theorem render_writes_witness :
    (render (1, 1) ((3 : ℚ), (0 : ℚ)) ((4 : ℚ), (0 : ℚ)))[0]? = some 254 := by
  have h := (render_writes (1, 1) ((3 : ℚ), (0 : ℚ)) ((4 : ℚ), (0 : ℚ)) 0 0
    (by decide) (by decide)).2 1 (by rw [pixel_three]; exact escape_three_some 255 (by decide))
  simpa using h.1

lemma zIter_neg_one (n : ℕ) :
    zIter ((-1 : ℚ), (0 : ℚ)) n = (0, 0) ∨
      zIter ((-1 : ℚ), (0 : ℚ)) n = (-1, 0) := by
  induction n with
  | zero => left; rfl
  | succ m ih =>
    rcases ih with h | h
    · right; rw [zIter, h]; norm_num [cmul, cadd]
    · left; rw [zIter, h]; norm_num [cmul, cadd]

lemma escape_neg_one_none (limit : ℕ) :
    escape_time ((-1 : ℚ), (0 : ℚ)) limit = none := by
  rw [escape_none_iff]
  intro j _
  rcases zIter_neg_one j with h | h <;> rw [h] <;> norm_num [norm_sqr]

/-- C7: rendering a 2x1 image over the degenerate zero-height region
from (-1, 0) to (1, 0) performs no division by zero and completes: the
divisors used by `pixel_to_point` are the pixel bounds 2 and 1, both
nonzero as rationals (never the plane width or the plane height, which
is 0 here), and the result is the 2-byte buffer [0, 0]. -/
theorem render_degenerate_region :
    render (2, 1) ((-1 : ℚ), (0 : ℚ)) ((1 : ℚ), (0 : ℚ)) = [0, 0] ∧
    (render (2, 1) ((-1 : ℚ), (0 : ℚ)) ((1 : ℚ), (0 : ℚ))).length = 2 ∧
    ((2 : ℕ) : ℚ) ≠ 0 ∧ ((1 : ℕ) : ℚ) ≠ 0 := by
  have p0 : pixel_to_point (2, 1) (0, 0) ((-1 : ℚ), (0 : ℚ))
      ((1 : ℚ), (0 : ℚ)) = (-1, 0) := by
    norm_num [pixel_to_point]
  have p1 : pixel_to_point (2, 1) (1, 0) ((-1 : ℚ), (0 : ℚ))
      ((1 : ℚ), (0 : ℚ)) = (0, 0) := by
    norm_num [pixel_to_point]
  have hr : render (2, 1) ((-1 : ℚ), (0 : ℚ)) ((1 : ℚ), (0 : ℚ)) = [0, 0] := by
    rw [render]
    show List.flatMap (List.range 1) _ = _
    rw [List.range_succ, List.range_zero, List.nil_append]
    rw [List.flatMap_cons, List.flatMap_nil, List.append_nil]
    show List.map _ (List.range 2) = _
    rw [List.range_succ, List.range_succ, List.range_zero, List.nil_append]
    rw [List.map_append, List.map_cons, List.map_cons, List.map_nil]
    rw [p0, p1]
    rw [render_pixel, render_pixel, escape_neg_one_none, escape_origin_none]
    rfl
  exact ⟨hr, by rw [hr]; rfl, by norm_num, by norm_num⟩

/-- Number of rows per band (src/main.rs lines 23-24):
`bounds.1 / threads + 1` with `threads = 8`, i.e. truncating division
plus one. -/
def rows_per_band (height : ℕ) : ℕ := height / 8 + 1

/-- Lengths of the slices produced by `pixels.chunks_mut(size)` on a
buffer of `len` bytes (src/main.rs line 28): full chunks of `size`
bytes, then one final shorter chunk holding the remainder, if any. -/
def chunkLens (size len : ℕ) : List ℕ :=
  if _h : 0 < len ∧ 0 < size then min size len :: chunkLens size (len - size)
  else []
termination_by len
decreasing_by omega

/-- The bands the driver creates (src/main.rs lines 28-36): the
enumerated chunks of `rows_per_band * bounds.0` bytes, each paired
with its top row `rows_per_band * i` and its height
`band.len() / bounds.0`. -/
def bands (width height : ℕ) : List (ℕ × ℕ) :=
  ((chunkLens (rows_per_band height * width) (width * height)).enum).map
    fun p => (rows_per_band height * p.1, p.2 / width)

/-- Row indices covered by all bands, in band order. -/
def band_rows (width height : ℕ) : List ℕ :=
  (bands width height).flatMap fun b => List.range' b.1 b.2

/-- Total number of buffer bytes covered by all band slices. -/
def band_bytes (width height : ℕ) : ℕ :=
  ((bands width height).map fun b => width * b.2).sum

lemma enum_eq_enumFrom {α : Type} (l : List α) : l.enum = l.enumFrom 0 := rfl

lemma min_mul_right (c n w : ℕ) : min (c * w) (n * w) = min c n * w := by
  rcases le_total c n with hcn | hcn
  · rw [min_eq_left (Nat.mul_le_mul_right w hcn), min_eq_left hcn]
  · rw [min_eq_right (Nat.mul_le_mul_right w hcn), min_eq_right hcn]

lemma chunkLens_mul (c w : ℕ) (hw : 0 < w) :
    ∀ n, chunkLens (c * w) (n * w) = (chunkLens c n).map (· * w) := by
  intro n
  induction n using Nat.strong_induction_on with
  | _ n ih =>
    by_cases h : 0 < n ∧ 0 < c
    · conv_lhs => rw [chunkLens]
      conv_rhs => rw [chunkLens]
      rw [dif_pos ⟨Nat.mul_pos h.1 hw, Nat.mul_pos h.2 hw⟩, dif_pos h,
        List.map_cons, min_mul_right, ← Nat.sub_mul, ih (n - c) (by omega)]
    · have hnw : ¬ (0 < n * w ∧ 0 < c * w) := by
        rintro ⟨h1, h2⟩
        refine h ⟨Nat.pos_of_ne_zero ?_, Nat.pos_of_ne_zero ?_⟩
        · exact (Nat.mul_ne_zero_iff.mp (Nat.pos_iff_ne_zero.mp h1)).1
        · exact (Nat.mul_ne_zero_iff.mp (Nat.pos_iff_ne_zero.mp h2)).1
      conv_lhs => rw [chunkLens]
      conv_rhs => rw [chunkLens]
      rw [dif_neg hnw, dif_neg h, List.map_nil]

lemma chunkLens_sum (c : ℕ) (hc : 0 < c) :
    ∀ n, (chunkLens c n).sum = n := by
  intro n
  induction n using Nat.strong_induction_on with
  | _ n ih =>
    rw [chunkLens]
    by_cases h : 0 < n ∧ 0 < c
    · rw [dif_pos h, List.sum_cons, ih (n - c) (by omega)]
      omega
    · rw [dif_neg h, List.sum_nil]
      omega

lemma chunk_flatten_div (c w : ℕ) (hc : 0 < c) (hw : 0 < w) :
    ∀ n i, (((chunkLens (c * w) (n * w)).enumFrom i).flatMap
        fun p => List.range' (c * p.1) (p.2 / w)) = List.range' (c * i) n := by
  intro n
  induction n using Nat.strong_induction_on with
  | _ n ih =>
    intro i
    conv_lhs => rw [chunkLens]
    by_cases h : 0 < n
    · rw [dif_pos ⟨Nat.mul_pos h hw, Nat.mul_pos hc hw⟩]
      simp only [List.enumFrom_cons, List.flatMap_cons]
      rw [min_mul_right, ← Nat.sub_mul, Nat.mul_div_cancel _ hw,
        ih (n - c) (by omega) (i + 1)]
      rcases le_total n c with hnc | hnc
      · rw [min_eq_right hnc, Nat.sub_eq_zero_of_le hnc, List.range'_zero,
          List.append_nil]
      · rw [min_eq_left hnc]
        have h1 := List.range'_append (c * i) c (n - c) 1
        rw [one_mul] at h1
        have h2 : c * i + c = c * (i + 1) := by ring
        have h3 : n - c + c = n := by omega
        rw [h2, h3] at h1
        exact h1
    · have hn0 : n = 0 := by omega
      subst hn0
      rw [dif_neg (by simp)]
      simp [List.range'_zero]

lemma chunk_bytes_div (c w : ℕ) (hc : 0 < c) (hw : 0 < w) :
    ∀ n i, ((((chunkLens (c * w) (n * w)).enumFrom i).map
        fun p => w * (p.2 / w)).sum) = n * w := by
  intro n
  induction n using Nat.strong_induction_on with
  | _ n ih =>
    intro i
    conv_lhs => rw [chunkLens]
    by_cases h : 0 < n
    · rw [dif_pos ⟨Nat.mul_pos h hw, Nat.mul_pos hc hw⟩]
      simp only [List.enumFrom_cons, List.map_cons, List.sum_cons]
      rw [min_mul_right, ← Nat.sub_mul, Nat.mul_div_cancel _ hw,
        ih (n - c) (by omega) (i + 1)]
      have h1 : w * min c n + (n - c) * w = (min c n + (n - c)) * w := by ring
      have h2 : min c n + (n - c) = n := by omega
      rw [h1, h2]
    · have hn0 : n = 0 := by omega
      subst hn0
      rw [dif_neg (by simp)]
      simp

lemma rows_per_band_pos (height : ℕ) : 0 < rows_per_band height :=
  Nat.succ_pos _

lemma band_rows_eq (width height : ℕ) (hw : 0 < width) :
    band_rows width height = List.range height := by
  have h := chunk_flatten_div (rows_per_band height) width
    (rows_per_band_pos height) hw height 0
  rw [Nat.mul_zero] at h
  rw [band_rows, bands, List.flatMap_map, mul_comm width height,
    enum_eq_enumFrom, List.range_eq_range']
  exact h

lemma band_bytes_eq (width height : ℕ) (hw : 0 < width) :
    band_bytes width height = width * height := by
  have h := chunk_bytes_div (rows_per_band height) width
    (rows_per_band_pos height) hw height 0
  rw [band_bytes, bands, List.map_map, mul_comm width height,
    enum_eq_enumFrom]
  exact h

/-- C3: for every positive width and height, the row bands produced by
the driver's chunking are contiguous, pairwise disjoint, and cover
exactly the rows 0 to height-1 in order (their concatenated row ranges
are literally the list `range height`), and the band slices together
cover exactly the `width * height` bytes of the pixel buffer. -/
theorem bands_partition (width height : ℕ) (hw : 0 < width)
    (_hh : 0 < height) :
    band_rows width height = List.range height ∧
    band_bytes width height = width * height :=
  ⟨band_rows_eq width height hw, band_bytes_eq width height hw⟩

/-- Witness for C3 at width 2 and height 3. -/
theorem bands_partition_witness :
    0 < 2 ∧ 0 < 3 ∧
      (band_rows 2 3 = List.range 3 ∧ band_bytes 2 3 = 2 * 3) :=
  ⟨by decide, by decide, bands_partition 2 3 (by decide) (by decide)⟩

/-- C6: for every positive height, the driver's rows-per-band value
`height / 8 + 1` equals the true ceiling division `(height + 7) / 8`
exactly when 8 does not divide `height`; when 8 divides `height` the
two values differ. -/
theorem rows_per_band_vs_ceil (height : ℕ) (_h : 0 < height) :
    rows_per_band height = (height + 7) / 8 ↔ ¬ 8 ∣ height := by
  rw [rows_per_band, Nat.dvd_iff_mod_eq_zero]
  omega

/-- Witness for C6 at the concrete height 3, which 8 does not divide. -/
theorem rows_per_band_vs_ceil_witness :
    0 < 3 ∧ (rows_per_band 3 = (3 + 7) / 8 ↔ ¬ 8 ∣ 3) :=
  ⟨by decide, rows_per_band_vs_ceil 3 (by decide)⟩

/-- C10: every band slice produced by chunking the
`width * height`-byte buffer into `rows_per_band * width`-byte chunks
has a length that is an exact multiple of `width`, so with the band
height derived as `len / width` the assertion
`pixels.len() == bounds.0 * bounds.1` at the top of `render` holds on
every band: the fatal assertion branch is unreachable from the
driver. -/
theorem render_assert_unreachable (width height : ℕ) (hw : 0 < width) :
    ∀ len ∈ chunkLens (rows_per_band height * width) (width * height),
      width ∣ len ∧ len = width * (len / width) := by
  intro len hlen
  rw [mul_comm width height,
    chunkLens_mul (rows_per_band height) width hw height] at hlen
  obtain ⟨m, -, rfl⟩ := List.mem_map.mp hlen
  refine ⟨⟨m, mul_comm m width⟩, ?_⟩
  rw [Nat.mul_div_cancel _ hw, mul_comm]

/-- Witness for C10: with width 2 and height 3 the chunking yields
three 2-byte bands; the band of length 2 satisfies the assertion. -/
theorem render_assert_unreachable_witness :
    0 < 2 ∧ (2 ∣ 2 ∧ 2 = 2 * (2 / 2)) := by
  refine ⟨by decide, render_assert_unreachable 2 3 (by decide) 2 ?_⟩
  have h : chunkLens (rows_per_band 3 * 2) (2 * 3) = [2, 2, 2] := by
    have h1 : rows_per_band 3 * 2 = 2 := by rw [rows_per_band]
    rw [h1]
    rw [chunkLens]; norm_num
    rw [chunkLens]; norm_num
    rw [chunkLens]; norm_num
    rw [chunkLens]; norm_num
  rw [h]
  simp

/-- Digit-string value: `some` of the decimal value when the character
list is nonempty and all ASCII digits, `none` otherwise; the digit
core of Rust's integer `from_str`. -/
def parseNatDigits (s : List Char) : Option ℕ :=
  if s ≠ [] ∧ s.all Char.isDigit then
    some (s.foldl (fun acc ch => acc * 10 + (ch.toNat - 48)) 0)
  else none

/-- Model of `i32::from_str`, the `T::from_str` instance used for the
integer test vectors: an optional sign followed by one or more ASCII
digits and nothing else, rejecting values outside the i32 range. -/
def from_str_i32 (s : List Char) : Option ℤ :=
  match s with
  | '+' :: rest =>
    (parseNatDigits rest).bind fun n =>
      if (n : ℤ) ≤ 2 ^ 31 - 1 then some (n : ℤ) else none
  | '-' :: rest =>
    (parseNatDigits rest).bind fun n =>
      if (n : ℤ) ≤ 2 ^ 31 then some (-(n : ℤ)) else none
  | _ =>
    (parseNatDigits s).bind fun n =>
      if (n : ℤ) ≤ 2 ^ 31 - 1 then some (n : ℤ) else none

/-- Model of `String::from_str`, which never fails. -/
def from_str_string (s : List Char) : Option (List Char) := some s

/-- Model of `parse_pair` from src/main.rs lines 62-74, generic over
the target type's `from_str`: find the first occurrence of the
separator, parse the substring before it and the substring after it,
and return the pair when both parses succeed. Strings are modelled as
lists of characters (every test vector is ASCII, so Rust's byte
indices agree with character indices). -/
def parse_pair {T : Type} (from_str : List Char → Option T)
    (s : List Char) (separator : Char) : Option (T × T) :=
  match s.findIdx? (· == separator) with
  | none => none
  | some index =>
    match from_str (s.take index), from_str (s.drop (index + 1)) with
    | some x, some y => some (x, y)
    | _, _ => none

/-- C9: `parse_pair` returns no value exactly when the separator is
absent or one of the two substrings around its first occurrence fails
to parse; and on the spec's test vectors it behaves as stated:
"-10x10" on 'x' as integers gives (-10, 10), "800,600f" on ',' fails,
"1920/1080" on '/' gives (1920, 1080), "10.6*-34" on '*' as integers
fails, and "abc*jhu" on '*' as strings gives ("abc", "jhu"). -/
theorem parse_pair_spec :
    (∀ {T : Type} (from_str : List Char → Option T) (s : List Char)
        (sep : Char),
      parse_pair from_str s sep = none ↔
        sep ∉ s ∨
          ∃ i, s.findIdx? (· == sep) = some i ∧
            (from_str (s.take i) = none ∨ from_str (s.drop (i + 1)) = none)) ∧
    parse_pair from_str_i32 ("-10x10".toList) 'x' = some (-10, 10) ∧
    parse_pair from_str_i32 ("800,600f".toList) ',' = none ∧
    parse_pair from_str_i32 ("1920/1080".toList) '/' = some (1920, 1080) ∧
    parse_pair from_str_i32 ("10.6*-34".toList) '*' = none ∧
    parse_pair from_str_string ("abc*jhu".toList) '*' =
      some ("abc".toList, "jhu".toList) := by
  refine ⟨?_, by decide, by decide, by decide, by decide, by decide⟩
  intro T from_str s sep
  cases hf : s.findIdx? (· == sep) with
  | none =>
    have hmem : sep ∉ s := by
      intro hs
      rw [List.findIdx?_eq_none_iff] at hf
      have := hf sep hs
      simp at this
    simp [parse_pair, hf, hmem]
  | some i =>
    have hmem : sep ∈ s := by
      rw [List.findIdx?_eq_some_iff_getElem] at hf
      obtain ⟨hlen, hp, -⟩ := hf
      have hs : s[i] = sep := by simpa using hp
      rw [← hs]
      exact List.getElem_mem hlen
    cases hx : from_str (s.take i) with
    | none => simp [parse_pair, hf, hx]
    | some x =>
      cases hy : from_str (s.drop (i + 1)) with
      | none => simp [parse_pair, hf, hx, hy]
      | some y => simp [parse_pair, hf, hx, hy, hmem]
